import Mathlib

/-!
Shallow embedding of the unified-diff engine of `diff.go` in the batcha
repository: `splitLines` (Go `strings.Split` on newline), `lcsTable`,
`buildOps`, `buildHunks`, `formatHunk` and `unifiedDiff`, together with a
mathematical specification of longest-common-subsequence length used to
verify the LCS table.
-/

/-- Splitting step over the character list of a text, carrying the reversed
characters of the current field; a newline closes the current field.
Mirrors Go `strings.Split(s, "\n")` with its single-character separator. -/
def splitLinesAux : List Char → List Char → List String
  | [], acc => [String.mk acc.reverse]
  | c :: cs, acc =>
    if c = '\n' then String.mk acc.reverse :: splitLinesAux cs []
    else splitLinesAux cs (c :: acc)

/-- Go `strings.Split(s, "\n")`: every text splits into a nonempty list of
lines; the empty text yields the one-element list holding the empty
string. -/
def splitLines (s : String) : List String :=
  splitLinesAux s.data []

/-- One row of the LCS table: given line `x` of A, the remaining lines of B
from the current column on, and the suffix of the already-computed next row
from the same column on, produce the suffix of the current row. Mirrors the
inner loop of `lcsTable` in `diff.go`, which fills column `j` from `n - 1`
down to `0` and leaves column `n` at zero. -/
def lcsRow (x : String) : List String → List Nat → List Nat
  | [], _ => [0]
  | y :: ys, next =>
    let rest := lcsRow x ys next.tail
    (if x = y then next.tail.headD 0 + 1
     else if next.headD 0 ≥ rest.headD 0 then next.headD 0
     else rest.headD 0) :: rest

/-- `lcsTable` of `diff.go`: the dynamic-programming table with rows
`i = 0 .. m`, built bottom-up so each row is computed from the row below;
row `m` and column `n` stay at their zero initialization. -/
def lcsTable : List String → List String → List (List Nat)
  | [], b => [List.replicate (b.length + 1) 0]
  | x :: xs, b => lcsRow x b ((lcsTable xs b).headD []) :: lcsTable xs b

/-- An edit operation of `diff.go`: `kind` is one of the marker characters
space, minus, plus; `line` is the affected line; `posA` and `posB` are the
zero-based cursor positions at emission time. -/
structure diffOp where
  kind : Char
  line : String
  posA : Nat
  posB : Nat
deriving DecidableEq

instance : Inhabited diffOp := ⟨⟨' ', "", 0, 0⟩⟩

/-- The trailing loop of `buildOps` once B is exhausted: the rest of A is
emitted as deletes, the B cursor frozen at `j`. -/
def deleteRest : List String → Nat → Nat → List diffOp
  | [], _, _ => []
  | x :: xs, i, j => ⟨'-', x, i, j⟩ :: deleteRest xs (i + 1) j

/-- The trailing loop of `buildOps` once A is exhausted: the rest of B is
emitted as inserts, the A cursor frozen at `i`. -/
def insertRest : List String → Nat → Nat → List diffOp
  | [], _, _ => []
  | y :: ys, i, j => ⟨'+', y, i, j⟩ :: insertRest ys i (j + 1)

/-- The cursor walk of `buildOps` in `diff.go` over the remaining lines of A
and B; `i` and `j` are the absolute cursor positions and `lcs` the
precomputed table, indexed absolutely. Equal lines advance both cursors;
otherwise the table entries at `i + 1, j` and `i, j + 1` are compared, the
delete winning ties. When either side is exhausted the other side's
remainder is emitted wholesale. -/
def buildOpsAux (lcs : List (List Nat)) : List String → List String → Nat → Nat → List diffOp
  | x :: xs, y :: ys, i, j =>
    if x = y then
      ⟨' ', x, i, j⟩ :: buildOpsAux lcs xs ys (i + 1) (j + 1)
    else if (lcs.getD (i + 1) []).getD j 0 ≥ (lcs.getD i []).getD (j + 1) 0 then
      ⟨'-', x, i, j⟩ :: buildOpsAux lcs xs (y :: ys) (i + 1) j
    else
      ⟨'+', y, i, j⟩ :: buildOpsAux lcs (x :: xs) ys i (j + 1)
  | xs, [], i, j => deleteRest xs i j
  | [], ys, i, j => insertRest ys i j

/-- `buildOps` of `diff.go`. -/
def buildOps (a b : List String) (lcs : List (List Nat)) : List diffOp :=
  buildOpsAux lcs a b 0 0

/-- Go slice `l[s:e]` (in every use below `s ≤ e ≤ l.length`). -/
def goSlice {α : Type} (l : List α) (s e : Nat) : List α :=
  (l.take e).drop s

/-- `formatHunk` of `diff.go`: a header line with the 1-based positions of
the first operation and the equal-plus-delete / equal-plus-insert counts,
then one marker-prefixed line per operation. -/
def formatHunk (ops : List diffOp) : String :=
  match ops with
  | [] => ""
  | op0 :: _ =>
    let startA := op0.posA + 1
    let startB := op0.posB + 1
    let counts := ops.foldl
      (fun (c : Nat × Nat) op =>
        if op.kind = ' ' then (c.1 + 1, c.2 + 1)
        else if op.kind = '-' then (c.1 + 1, c.2)
        else if op.kind = '+' then (c.1, c.2 + 1)
        else c)
      (0, 0)
    let header := "@@ -" ++ toString startA ++ "," ++ toString counts.1 ++ " +"
      ++ toString startB ++ "," ++ toString counts.2 ++ " @@\n"
    ops.foldl (fun s op => s ++ String.singleton op.kind ++ op.line ++ "\n") header

/-- The fixed context window of `buildHunks` (`const ctx = 3`). -/
def ctx : Nat := 3

/-- Accumulator of the hunk-assembly loop in `buildHunks`: the finished
hunks, the operations of the currently open hunk, and the index of the last
non-equal operation seen (`none` standing for Go's `-1`). -/
structure HunkState where
  hunks : List String
  hunkOps : List diffOp
  lastChange : Option Nat
deriving DecidableEq

/-- One iteration of the loop of `buildHunks` in `diff.go` at index `i`
with operation `op`; `ops` is the whole edit script, which the loop indexes
for context slices. The loop visits indices in increasing order, so `i`
strictly exceeds `lastChange` whenever the latter is set, making natural
subtraction `i - lc` agree with Go's integer subtraction. -/
def hunkStep (ops : List diffOp) (s : HunkState) (i : Nat) (op : diffOp) : HunkState :=
  if op.kind = ' ' then s
  else
    match s.lastChange with
    | none =>
        { hunks := s.hunks
          hunkOps := goSlice ops (i - ctx) i ++ [op]
          lastChange := some i }
    | some lc =>
        if i - lc > 2 * ctx then
          { hunks := s.hunks ++
              [formatHunk (s.hunkOps ++ goSlice ops (lc + 1) (min (lc + ctx + 1) ops.length))]
            hunkOps := goSlice ops (i - ctx) i ++ [op]
            lastChange := some i }
        else
          { hunks := s.hunks
            hunkOps := (s.hunkOps ++ goSlice ops (lc + 1) i) ++ [op]
            lastChange := some i }

/-- The `for i, op := range ops` loop of `buildHunks`, as a fold of
`hunkStep` over the operations paired with their indices. -/
def hunkLoop (ops : List diffOp) : Nat → List diffOp → HunkState → HunkState
  | _, [], s => s
  | i, op :: rest, s => hunkLoop ops (i + 1) rest (hunkStep ops s i op)

/-- The flush after the loop of `buildHunks`: when a change was seen, the
open hunk is emitted with up to `ctx` trailing context operations. -/
def flushFinal (ops : List diffOp) (s : HunkState) : List String :=
  match s.lastChange with
  | none => s.hunks
  | some lc =>
      s.hunks ++ [formatHunk (s.hunkOps ++ goSlice ops (lc + 1) (min (lc + ctx + 1) ops.length))]

/-- The body of `buildHunks` of `diff.go` from the edit script on: empty
script or script without changes yields no hunks, otherwise the loop runs
and the last hunk is flushed. -/
def buildHunksOps (ops : List diffOp) : List String :=
  if ops = [] then []
  else if ops.any (fun op => op.kind ≠ ' ') then
    flushFinal ops (hunkLoop ops 0 ops ⟨[], [], none⟩)
  else []

/-- `buildHunks` of `diff.go`. -/
def buildHunks (a b : List String) (lcs : List (List Nat)) : List String :=
  buildHunksOps (buildOps a b lcs)

/-- `unifiedDiff` of `diff.go`: split both texts into lines, diff, render;
the empty string when there are no hunks. -/
def unifiedDiff (a b labelA labelB : String) : String :=
  let linesA := splitLines a
  let linesB := splitLines b
  let lcs := lcsTable linesA linesB
  let hunks := buildHunks linesA linesB lcs
  if hunks = [] then ""
  else
    (("--- " ++ labelA ++ "\n") ++ ("+++ " ++ labelB ++ "\n")) ++ String.join hunks

/-- Mathematical specification of the length of a longest common
subsequence of two line sequences, by the textbook recurrence. -/
def lcsLenSpec : List String → List String → Nat
  | [], _ => 0
  | _ :: _, [] => 0
  | x :: xs, y :: ys =>
    if x = y then lcsLenSpec xs ys + 1
    else max (lcsLenSpec xs (y :: ys)) (lcsLenSpec (x :: xs) ys)

/-- Replay of the B-side reconstruction: keep, in emitted order, the lines
of the equal and insert operations and skip the deletes. -/
def replayKeepB (ops : List diffOp) : List String :=
  (ops.filter (fun op => op.kind = ' ' ∨ op.kind = '+')).map diffOp.line

/-- Replay of the A-side reconstruction: keep, in emitted order, the lines
of the equal and delete operations and skip the inserts. -/
def replayKeepA (ops : List diffOp) : List String :=
  (ops.filter (fun op => op.kind = ' ' ∨ op.kind = '-')).map diffOp.line

theorem replayKeepA_deleteRest (xs : List String) (i j : Nat) :
    replayKeepA (deleteRest xs i j) = xs := by
  induction xs generalizing i with
  | nil => rfl
  | cons x xs ih => simp [deleteRest, replayKeepA, List.filter] at ih ⊢; exact ih _

theorem replayKeepB_deleteRest (xs : List String) (i j : Nat) :
    replayKeepB (deleteRest xs i j) = [] := by
  induction xs generalizing i with
  | nil => rfl
  | cons x xs ih => simp [deleteRest, replayKeepB, List.filter] at ih ⊢; exact ih _

theorem replayKeepA_insertRest (ys : List String) (i j : Nat) :
    replayKeepA (insertRest ys i j) = [] := by
  induction ys generalizing j with
  | nil => rfl
  | cons y ys ih => simp [insertRest, replayKeepA, List.filter] at ih ⊢; exact ih _

theorem replayKeepB_insertRest (ys : List String) (i j : Nat) :
    replayKeepB (insertRest ys i j) = ys := by
  induction ys generalizing j with
  | nil => rfl
  | cons y ys ih => simp [insertRest, replayKeepB, List.filter] at ih ⊢; exact ih _

theorem buildOpsAux_replayKeepA (lcs : List (List Nat)) (xs ys : List String) (i j : Nat) :
    replayKeepA (buildOpsAux lcs xs ys i j) = xs := by
  induction xs, ys, i, j using buildOpsAux.induct lcs with
  | case1 xs y ys i j ih => simpa [buildOpsAux, replayKeepA] using ih
  | case2 x xs y ys i j hxy hge ih =>
      simp only [buildOpsAux, if_neg hxy, if_pos hge]
      simpa [replayKeepA] using ih
  | case3 x xs y ys i j hxy hlt ih =>
      simp only [buildOpsAux, if_neg hxy, if_neg hlt]
      simpa [replayKeepA] using ih
  | case4 xs i j => simp [buildOpsAux, replayKeepA_deleteRest]
  | case5 ys i j hne =>
      cases ys with
      | nil => exact absurd rfl hne
      | cons y ys => simp [buildOpsAux, replayKeepA_insertRest]

theorem buildOpsAux_replayKeepB (lcs : List (List Nat)) (xs ys : List String) (i j : Nat) :
    replayKeepB (buildOpsAux lcs xs ys i j) = ys := by
  induction xs, ys, i, j using buildOpsAux.induct lcs with
  | case1 xs y ys i j ih => simpa [buildOpsAux, replayKeepB] using ih
  | case2 x xs y ys i j hxy hge ih =>
      simp only [buildOpsAux, if_neg hxy, if_pos hge]
      simpa [replayKeepB] using ih
  | case3 x xs y ys i j hxy hlt ih =>
      simp only [buildOpsAux, if_neg hxy, if_neg hlt]
      simpa [replayKeepB] using ih
  | case4 xs i j => simp [buildOpsAux, replayKeepB_deleteRest]
  | case5 ys i j hne =>
      cases ys with
      | nil => exact absurd rfl hne
      | cons y ys => simp [buildOpsAux, replayKeepB_insertRest]

/-- C1: replaying the equal and insert lines of the edit script produced by
buildOps (skipping deletes) yields exactly B, and replaying the equal and
delete lines (skipping inserts) yields exactly A. -/
theorem C1_buildOps_roundtrip (a b : List String) :
    replayKeepB (buildOps a b (lcsTable a b)) = b ∧
    replayKeepA (buildOps a b (lcsTable a b)) = a :=
  ⟨buildOpsAux_replayKeepB _ a b 0 0, buildOpsAux_replayKeepA _ a b 0 0⟩

theorem buildOpsAux_self_equal (lcs : List (List Nat)) (l : List String) (i j : Nat) :
    ∀ op ∈ buildOpsAux lcs l l i j, op.kind = ' ' := by
  induction l generalizing i j with
  | nil => simp [buildOpsAux, deleteRest]
  | cons x l ih =>
      intro op hop
      simp only [buildOpsAux, if_pos rfl] at hop
      cases hop with
      | head => rfl
      | tail _ hmem => exact ih (i + 1) (j + 1) op hmem

theorem replay_eq_of_all_equal (ops : List diffOp)
    (h : ∀ op ∈ ops, op.kind = ' ') : replayKeepA ops = replayKeepB ops := by
  unfold replayKeepA replayKeepB
  rw [List.filter_eq_self.mpr, List.filter_eq_self.mpr]
  · intro op hop; simp [h op hop]
  · intro op hop; simp [h op hop]

theorem buildHunksOps_all_equal (ops : List diffOp)
    (h : ∀ op ∈ ops, op.kind = ' ') : buildHunksOps ops = [] := by
  rcases eq_or_ne ops [] with rfl | hne
  · rfl
  · have hany : ¬ ops.any (fun op => op.kind ≠ ' ') = true := by
      simp only [List.any_eq_true, not_exists]
      intro op
      simp only [not_and]
      intro hop
      simp [h op hop]
    unfold buildHunksOps
    rw [if_neg hne, if_neg hany]

/-- buildHunks on two equal line sequences yields no hunks, whatever the
table passed in. -/
theorem buildHunks_self (l : List String) (t : List (List Nat)) :
    buildHunks l l t = [] :=
  buildHunksOps_all_equal _ (buildOpsAux_self_equal t l 0 0)

theorem hunkStep_lastChange_some (ops : List diffOp) (s : HunkState) (i : Nat) (op : diffOp)
    (lc : Nat) (h : s.lastChange = some lc) :
    ∃ lc', (hunkStep ops s i op).lastChange = some lc' := by
  unfold hunkStep
  by_cases hk : op.kind = ' '
  · rw [if_pos hk]; exact ⟨lc, h⟩
  · simp only [if_neg hk, h]
    split
    · exact ⟨i, rfl⟩
    · exact ⟨i, rfl⟩

theorem hunkLoop_lastChange_mono (ops : List diffOp) (l : List diffOp) (i : Nat)
    (s : HunkState) (lc : Nat) (h : s.lastChange = some lc) :
    ∃ lc', (hunkLoop ops i l s).lastChange = some lc' := by
  induction l generalizing i s lc with
  | nil => exact ⟨lc, h⟩
  | cons op rest ih =>
      obtain ⟨lc', h'⟩ := hunkStep_lastChange_some ops s i op lc h
      exact ih (i + 1) _ lc' h'

theorem hunkLoop_change_some (ops : List diffOp) (l : List diffOp) (i : Nat)
    (s : HunkState) (h : ∃ op ∈ l, op.kind ≠ ' ') :
    ∃ lc', (hunkLoop ops i l s).lastChange = some lc' := by
  induction l generalizing i s with
  | nil => simp at h
  | cons op rest ih =>
      by_cases hk : op.kind = ' '
      · have hrest : ∃ op ∈ rest, op.kind ≠ ' ' := by
          obtain ⟨op', hmem, hne⟩ := h
          rcases List.mem_cons.mp hmem with rfl | hmem'
          · exact absurd hk hne
          · exact ⟨op', hmem', hne⟩
        exact ih (i + 1) _ hrest
      · have hstep : (hunkStep ops s i op).lastChange = some i := by
          unfold hunkStep
          rw [if_neg hk]
          cases hlc : s.lastChange with
          | none => rfl
          | some lc => simp only []; split <;> rfl
        exact hunkLoop_lastChange_mono ops rest (i + 1) _ i hstep

theorem flushFinal_ne_nil (ops : List diffOp) (s : HunkState) (lc : Nat)
    (h : s.lastChange = some lc) : flushFinal ops s ≠ [] := by
  simp [flushFinal, h]

theorem buildHunksOps_ne_nil (ops : List diffOp) (h : ∃ op ∈ ops, op.kind ≠ ' ') :
    buildHunksOps ops ≠ [] := by
  have hne : ops ≠ [] := by rintro rfl; simp at h
  have hany : ops.any (fun op => op.kind ≠ ' ') = true := by
    simpa [List.any_eq_true] using h
  obtain ⟨lc', hlc⟩ := hunkLoop_change_some ops ops 0 ⟨[], [], none⟩ h
  unfold buildHunksOps
  rw [if_neg hne, if_pos hany]
  exact flushFinal_ne_nil ops _ lc' hlc

theorem headers_ne_empty (labelA labelB rest : String) :
    (("--- " ++ labelA ++ "\n") ++ ("+++ " ++ labelB ++ "\n")) ++ rest ≠ "" := by
  intro h
  have hlen := congrArg String.length h
  simp only [String.length_append] at hlen
  have h4 : ("--- " : String).length = 4 := rfl
  have h0 : ("" : String).length = 0 := rfl
  omega

/-- unifiedDiff returns the empty string exactly when the two texts split
into equal line sequences. -/
theorem unifiedDiff_eq_empty_iff (a b labelA labelB : String) :
    unifiedDiff a b labelA labelB = "" ↔ splitLines a = splitLines b := by
  constructor
  · intro h
    by_contra hab
    have hchange : ∃ op ∈ buildOps (splitLines a) (splitLines b)
        (lcsTable (splitLines a) (splitLines b)), op.kind ≠ ' ' := by
      by_contra hall
      push_neg at hall
      have h1 := buildOpsAux_replayKeepA (lcsTable (splitLines a) (splitLines b))
        (splitLines a) (splitLines b) 0 0
      have h2 := buildOpsAux_replayKeepB (lcsTable (splitLines a) (splitLines b))
        (splitLines a) (splitLines b) 0 0
      have heq := replay_eq_of_all_equal _ hall
      rw [buildOps] at heq
      exact hab ((h1.symm.trans heq).trans h2)
    have hhunks : buildHunks (splitLines a) (splitLines b)
        (lcsTable (splitLines a) (splitLines b)) ≠ [] :=
      buildHunksOps_ne_nil _ hchange
    rw [unifiedDiff, if_neg hhunks] at h
    exact headers_ne_empty labelA labelB _ h
  · intro h
    have hnil : buildHunks (splitLines a) (splitLines b)
        (lcsTable (splitLines a) (splitLines b)) = [] := by
      rw [h]; exact buildHunks_self _ _
    rw [unifiedDiff]
    simp [hnil]

/-- C2: unifiedDiff returns the empty string if and only if the two texts
split into equal line sequences; in particular the diff of a text with
itself is empty for any labels. -/
theorem C2_unifiedDiff_empty_iff (a b labelA labelB : String) :
    (unifiedDiff a b labelA labelB = "" ↔ splitLines a = splitLines b) ∧
    unifiedDiff a a labelA labelB = "" :=
  ⟨unifiedDiff_eq_empty_iff a b labelA labelB,
   (unifiedDiff_eq_empty_iff a a labelA labelB).mpr rfl⟩

theorem headD_eq_getD (l : List Nat) : l.headD 0 = l.getD 0 0 := by
  cases l <;> rfl

theorem getD_replicate_zero : ∀ n j : Nat, (List.replicate n (0 : Nat)).getD j 0 = 0 := by
  intro n
  induction n with
  | zero => intro j; cases j <;> rfl
  | succ n ih => intro j; cases j with
      | zero => rfl
      | succ j' => exact ih j'

theorem tail_getD (l : List Nat) (k : Nat) : l.tail.getD k 0 = l.getD (k + 1) 0 := by
  cases l <;> rfl

theorem lcsLenSpec_nil_right : ∀ l : List String, lcsLenSpec l [] = 0 := by
  intro l
  cases l <;> simp [lcsLenSpec]

theorem lcsRow_spec (xs : List String) (x : String) :
    ∀ (ys : List String) (next : List Nat),
      (∀ k, next.getD k 0 = lcsLenSpec xs (ys.drop k)) →
      ∀ j, (lcsRow x ys next).getD j 0 = lcsLenSpec (x :: xs) (ys.drop j) := by
  intro ys
  induction ys with
  | nil =>
      intro next hnext j
      cases j with
      | zero => simp [lcsRow, lcsLenSpec]
      | succ j' => simp [lcsRow, lcsLenSpec]
  | cons y ys ih =>
      intro next hnext j
      have htail : ∀ k, next.tail.getD k 0 = lcsLenSpec xs (ys.drop k) := by
        intro k
        rw [tail_getD, hnext (k + 1)]
        rfl
      cases j with
      | zero =>
          simp only [lcsRow, List.getD_cons_zero, List.drop_zero]
          by_cases hxy : x = y
          · rw [if_pos hxy, headD_eq_getD, tail_getD, hnext 1]
            subst hxy
            simp [lcsLenSpec]
          · rw [if_neg hxy, headD_eq_getD, headD_eq_getD, hnext 0,
              ih next.tail htail 0]
            have hmax : lcsLenSpec (x :: xs) (y :: ys) =
                max (lcsLenSpec xs (y :: ys)) (lcsLenSpec (x :: xs) ys) := by
              simp [lcsLenSpec, hxy]
            simp only [List.drop_zero] at *
            rw [hmax]
            split <;> omega
      | succ j' =>
          simp only [lcsRow, List.getD_cons_succ, List.drop_succ_cons]
          exact ih next.tail htail j'

theorem lcsTable_headD_spec (b : List String) :
    ∀ (a : List String) (j : Nat),
      ((lcsTable a b).headD []).getD j 0 = lcsLenSpec a (b.drop j) := by
  intro a
  induction a with
  | nil =>
      intro j
      simp only [lcsTable, List.headD_cons]
      rw [getD_replicate_zero]
      cases hd : b.drop j <;> simp [lcsLenSpec]
  | cons x xs ih =>
      intro j
      simp only [lcsTable, List.headD_cons]
      exact lcsRow_spec xs x b ((lcsTable xs b).headD []) ih j

theorem lcsTable_getD_spec (b : List String) :
    ∀ (a : List String) (i j : Nat),
      ((lcsTable a b).getD i []).getD j 0 = lcsLenSpec (a.drop i) (b.drop j) := by
  intro a
  induction a with
  | nil =>
      intro i j
      cases i with
      | zero => simpa [lcsTable] using lcsTable_headD_spec b [] j
      | succ i' => simp [lcsTable, lcsLenSpec]
  | cons x xs ih =>
      intro i j
      cases i with
      | zero => simpa [lcsTable] using lcsTable_headD_spec b (x :: xs) j
      | succ i' =>
          simp only [lcsTable, List.getD_cons_succ, List.drop_succ_cons]
          exact ih i' j

theorem lcsLenSpec_exists (a b : List String) :
    ∃ l : List String, l.Sublist a ∧ l.Sublist b ∧ l.length = lcsLenSpec a b := by
  induction a, b using lcsLenSpec.induct with
  | case1 b =>
      exact ⟨[], List.nil_sublist _, List.nil_sublist _, by simp [lcsLenSpec]⟩
  | case2 x xs =>
      exact ⟨[], List.nil_sublist _, List.nil_sublist _, by simp [lcsLenSpec]⟩
  | case3 xs y ys ih =>
      obtain ⟨l, h1, h2, hlen⟩ := ih
      exact ⟨y :: l, h1.cons₂ y, h2.cons₂ y, by simp [lcsLenSpec, hlen]⟩
  | case4 x xs y ys hxy ih1 ih2 =>
      obtain ⟨l1, h11, h12, hlen1⟩ := ih1
      obtain ⟨l2, h21, h22, hlen2⟩ := ih2
      rcases le_total (lcsLenSpec (x :: xs) ys) (lcsLenSpec xs (y :: ys)) with hle | hle
      · refine ⟨l1, h11.cons x, h12, ?_⟩
        rw [hlen1]
        simp [lcsLenSpec, hxy, max_eq_left hle]
      · refine ⟨l2, h21, h22.cons y, ?_⟩
        rw [hlen2]
        simp [lcsLenSpec, hxy, max_eq_right hle]

theorem lcsLenSpec_upper (a b : List String) :
    ∀ l : List String, l.Sublist a → l.Sublist b → l.length ≤ lcsLenSpec a b := by
  induction a, b using lcsLenSpec.induct with
  | case1 b =>
      intro l h1 _
      rw [List.sublist_nil.mp h1]
      simp
  | case2 x xs =>
      intro l _ h2
      rw [List.sublist_nil.mp h2]
      simp
  | case3 xs y ys ih =>
      intro l h1 h2
      cases l with
      | nil => simp
      | cons z l' =>
          have hl1 : l'.Sublist xs := by
            cases h1 with
            | cons _ h => exact ((List.sublist_cons_self z l').trans h)
            | cons₂ _ h => exact h
          have hl2 : l'.Sublist ys := by
            cases h2 with
            | cons _ h => exact ((List.sublist_cons_self z l').trans h)
            | cons₂ _ h => exact h
          have := ih l' hl1 hl2
          simp only [lcsLenSpec, if_pos rfl, if_true, eq_self_iff_true, List.length_cons]
          omega
  | case4 x xs y ys hxy ih1 ih2 =>
      intro l h1 h2
      have hgoal : l.length ≤ max (lcsLenSpec xs (y :: ys)) (lcsLenSpec (x :: xs) ys) := by
        cases l with
        | nil => simp
        | cons z l' =>
            cases h1 with
            | cons _ h =>
                exact le_trans (ih1 (z :: l') h h2) (le_max_left _ _)
            | cons₂ _ h =>
                cases h2 with
                | cons _ h' =>
                    exact le_trans (ih2 (x :: l') (h.cons₂ x) h') (le_max_right _ _)
                | cons₂ _ h' => exact absurd rfl hxy
      simpa [lcsLenSpec, hxy] using hgoal

theorem lcsRow_length (x : String) :
    ∀ (ys : List String) (next : List Nat), (lcsRow x ys next).length = ys.length + 1 := by
  intro ys
  induction ys with
  | nil => intro next; rfl
  | cons y ys ih => intro next; simp [lcsRow, ih]

theorem lcsTable_length (a b : List String) :
    (lcsTable a b).length = a.length + 1 := by
  induction a with
  | nil => simp [lcsTable]
  | cons x xs ih => simp [lcsTable, ih]

theorem lcsTable_row_length (a b : List String) :
    ∀ row ∈ lcsTable a b, row.length = b.length + 1 := by
  induction a with
  | nil =>
      intro row hrow
      simp only [lcsTable, List.mem_singleton] at hrow
      simp [hrow]
  | cons x xs ih =>
      intro row hrow
      simp only [lcsTable, List.mem_cons] at hrow
      rcases hrow with rfl | hrow
      · exact lcsRow_length x b _
      · exact ih row hrow

theorem lcsTable_base_row (a b : List String) :
    (lcsTable a b).getD a.length [] = List.replicate (b.length + 1) 0 := by
  induction a with
  | nil => rfl
  | cons x xs ih => simpa [lcsTable] using ih

/-- C4: the LCS table has dimensions (m+1) x (n+1), its base row i = m and
base column j = n are all zero, and every cell i, j holds the length of a
longest common subsequence of the suffixes A[i:] and B[j:] (it is the
greatest length of a common sublist of the two suffixes). -/
theorem C4_lcsTable_spec (a b : List String) (i j : Nat)
    (hi : i ≤ a.length) (hj : j ≤ b.length) :
    (lcsTable a b).length = a.length + 1 ∧
    (∀ row ∈ lcsTable a b, row.length = b.length + 1) ∧
    (lcsTable a b).getD a.length [] = List.replicate (b.length + 1) 0 ∧
    ((lcsTable a b).getD i []).getD b.length 0 = 0 ∧
    IsGreatest {k : Nat | ∃ l : List String,
        l.Sublist (a.drop i) ∧ l.Sublist (b.drop j) ∧ l.length = k}
      (((lcsTable a b).getD i []).getD j 0) := by
  refine ⟨lcsTable_length a b, lcsTable_row_length a b, lcsTable_base_row a b, ?_, ?_, ?_⟩
  · rw [lcsTable_getD_spec, List.drop_length, lcsLenSpec_nil_right]
  · obtain ⟨l, h1, h2, hlen⟩ := lcsLenSpec_exists (a.drop i) (b.drop j)
    exact ⟨l, h1, h2, by rw [hlen, lcsTable_getD_spec]⟩
  · rintro k ⟨l, h1, h2, rfl⟩
    rw [lcsTable_getD_spec]
    exact lcsLenSpec_upper (a.drop i) (b.drop j) l h1 h2

/-- C4 witness: the LCS table specification evaluated at a concrete pair of
line sequences and a concrete in-range cell. -/
theorem C4_lcsTable_spec_witness :
    (1 ≤ (["a", "b", "c"] : List String).length ∧ 1 ≤ (["b", "a"] : List String).length) ∧
    ((lcsTable ["a", "b", "c"] ["b", "a"]).length = 4 ∧
    (∀ row ∈ lcsTable ["a", "b", "c"] ["b", "a"], row.length = 3) ∧
    (lcsTable ["a", "b", "c"] ["b", "a"]).getD 3 [] = List.replicate 3 0 ∧
    ((lcsTable ["a", "b", "c"] ["b", "a"]).getD 1 []).getD 2 0 = 0 ∧
    IsGreatest {k : Nat | ∃ l : List String,
        l.Sublist ((["a", "b", "c"] : List String).drop 1) ∧
        l.Sublist ((["b", "a"] : List String).drop 1) ∧ l.length = k}
      (((lcsTable ["a", "b", "c"] ["b", "a"]).getD 1 []).getD 1 0)) :=
  ⟨⟨by decide, by decide⟩,
   C4_lcsTable_spec ["a", "b", "c"] ["b", "a"] 1 1 (by decide) (by decide)⟩

/-- C5: at a mismatch with both cursors in range, buildOps emits a delete
of A[i] (advancing i) exactly when table[i+1][j] is at least table[i][j+1],
and an insert of B[j] (advancing j) otherwise; with the real LCS table a
tie of the two candidate subsequence lengths yields the delete. -/
theorem C5_buildOps_tiebreak (a b : List String) (t : List (List Nat)) (i j : Nat)
    (hi : i < a.length) (hj : j < b.length) (hne : a[i] ≠ b[j]) :
    ((t.getD (i + 1) []).getD j 0 ≥ (t.getD i []).getD (j + 1) 0 →
      buildOpsAux t (a.drop i) (b.drop j) i j =
        ⟨'-', a[i], i, j⟩ :: buildOpsAux t (a.drop (i + 1)) (b.drop j) (i + 1) j) ∧
    (¬ (t.getD (i + 1) []).getD j 0 ≥ (t.getD i []).getD (j + 1) 0 →
      buildOpsAux t (a.drop i) (b.drop j) i j =
        ⟨'+', b[j], i, j⟩ :: buildOpsAux t (a.drop i) (b.drop (j + 1)) i (j + 1)) ∧
    (lcsLenSpec (a.drop (i + 1)) (b.drop j) = lcsLenSpec (a.drop i) (b.drop (j + 1)) →
      buildOpsAux (lcsTable a b) (a.drop i) (b.drop j) i j =
        ⟨'-', a[i], i, j⟩ ::
          buildOpsAux (lcsTable a b) (a.drop (i + 1)) (b.drop j) (i + 1) j) := by
  have hda : a.drop i = a[i] :: a.drop (i + 1) := List.drop_eq_getElem_cons hi
  have hdb : b.drop j = b[j] :: b.drop (j + 1) := List.drop_eq_getElem_cons hj
  refine ⟨?_, ?_, ?_⟩
  · intro hge
    rw [hda, hdb, buildOpsAux, if_neg hne, if_pos hge, ← hdb]
  · intro hlt
    rw [hda, hdb, buildOpsAux, if_neg hne, if_neg hlt, ← hda]
  · intro htie
    have hge : ((lcsTable a b).getD (i + 1) []).getD j 0 ≥
        ((lcsTable a b).getD i []).getD (j + 1) 0 := by
      rw [lcsTable_getD_spec, lcsTable_getD_spec, htie]
    rw [hda, hdb, buildOpsAux, if_neg hne, if_pos hge, ← hdb]

/-- C5 witness: the tie-break theorem applied at a concrete mismatch. -/
theorem C5_buildOps_tiebreak_witness :
    (0 < (["x"] : List String).length ∧ 0 < (["y"] : List String).length ∧
      (["x"] : List String)[0] ≠ (["y"] : List String)[0]) ∧
    (((([[0, 0], [0, 0]] : List (List Nat)).getD 1 []).getD 0 0 ≥
        (([[0, 0], [0, 0]] : List (List Nat)).getD 0 []).getD 1 0 →
      buildOpsAux [[0, 0], [0, 0]] ((["x"] : List String).drop 0)
          ((["y"] : List String).drop 0) 0 0 =
        ⟨'-', (["x"] : List String)[0], 0, 0⟩ ::
          buildOpsAux [[0, 0], [0, 0]] ((["x"] : List String).drop 1)
            ((["y"] : List String).drop 0) 1 0) ∧
    (¬ (((([[0, 0], [0, 0]] : List (List Nat)).getD 1 []).getD 0 0 ≥
        (([[0, 0], [0, 0]] : List (List Nat)).getD 0 []).getD 1 0)) →
      buildOpsAux [[0, 0], [0, 0]] ((["x"] : List String).drop 0)
          ((["y"] : List String).drop 0) 0 0 =
        ⟨'+', (["y"] : List String)[0], 0, 0⟩ ::
          buildOpsAux [[0, 0], [0, 0]] ((["x"] : List String).drop 0)
            ((["y"] : List String).drop 1) 0 1) ∧
    (lcsLenSpec ((["x"] : List String).drop 1) ((["y"] : List String).drop 0) =
        lcsLenSpec ((["x"] : List String).drop 0) ((["y"] : List String).drop 1) →
      buildOpsAux (lcsTable ["x"] ["y"]) ((["x"] : List String).drop 0)
          ((["y"] : List String).drop 0) 0 0 =
        ⟨'-', (["x"] : List String)[0], 0, 0⟩ ::
          buildOpsAux (lcsTable ["x"] ["y"]) ((["x"] : List String).drop 1)
            ((["y"] : List String).drop 0) 1 0)) :=
  ⟨⟨by decide, by decide, by decide⟩,
   C5_buildOps_tiebreak ["x"] ["y"] [[0, 0], [0, 0]] 0 0 (by decide) (by decide) (by decide)⟩

theorem countsFold_spec (ops : List diffOp) :
    ∀ c : Nat × Nat,
      ops.foldl
        (fun (c : Nat × Nat) op =>
          if op.kind = ' ' then (c.1 + 1, c.2 + 1)
          else if op.kind = '-' then (c.1 + 1, c.2)
          else if op.kind = '+' then (c.1, c.2 + 1)
          else c) c =
      (c.1 + (ops.filter (fun op => op.kind = ' ' ∨ op.kind = '-')).length,
       c.2 + (ops.filter (fun op => op.kind = ' ' ∨ op.kind = '+')).length) := by
  induction ops with
  | nil => intro c; simp
  | cons op rest ih =>
      intro c
      by_cases h1 : op.kind = ' '
      · simp only [List.foldl_cons, List.filter_cons, h1, if_pos rfl, ih]
        simp [Prod.ext_iff]
        constructor <;> omega
      · by_cases h2 : op.kind = '-'
        · simp only [List.foldl_cons, List.filter_cons, h1, h2, if_neg h1, if_pos rfl, ih]
          simp [Prod.ext_iff, h1, h2]
          omega
        · by_cases h3 : op.kind = '+'
          · simp only [List.foldl_cons, List.filter_cons, h1, h2, h3, if_neg h1, if_neg h2,
              if_pos rfl, ih]
            simp [Prod.ext_iff, h1, h2, h3]
            omega
          · simp only [List.foldl_cons, List.filter_cons, if_neg h1, if_neg h2, if_neg h3, ih]
            simp [Prod.ext_iff, h1, h2, h3]

theorem renderFold_spec (ops : List diffOp) :
    ∀ init : String,
      ops.foldl (fun s op => s ++ String.singleton op.kind ++ op.line ++ "\n") init =
        init ++ String.join (ops.map
          (fun op => String.singleton op.kind ++ op.line ++ "\n")) := by
  induction ops with
  | nil => intro init; simp [String.join]
  | cons op rest ih =>
      intro init
      simp only [List.foldl_cons, List.map_cons, ih]
      have hjoin : ∀ (x : String) (l : List String),
          String.join (x :: l) = x ++ String.join l := by
        intro x l
        have haux : ∀ (l : List String) (s : String),
            l.foldl (fun r t => r ++ t) s = s ++ l.foldl (fun r t => r ++ t) "" := by
          intro l
          induction l with
          | nil => intro s; simp
          | cons u l ihl =>
              intro s
              simp only [List.foldl_cons]
              rw [ihl (s ++ u), ihl ("" ++ u)]
              simp [String.append_assoc]
        simp only [String.join, List.foldl_cons]
        rw [haux l ("" ++ x)]
        simp
      rw [hjoin]
      simp [String.append_assoc]

/-- C7: a nonempty hunk renders as the header line with the 1-based
positions of its first operation and the equal-plus-delete and
equal-plus-insert counts, followed by one line per operation made of the
single marker character and the raw line content. -/
theorem C7_formatHunk_render (ops : List diffOp) (hne : ops ≠ []) :
    formatHunk ops =
      "@@ -" ++ toString ((ops.headD default).posA + 1) ++ ","
        ++ toString (ops.filter (fun op => op.kind = ' ' ∨ op.kind = '-')).length
        ++ " +" ++ toString ((ops.headD default).posB + 1) ++ ","
        ++ toString (ops.filter (fun op => op.kind = ' ' ∨ op.kind = '+')).length
        ++ " @@\n"
        ++ String.join (ops.map (fun op => String.singleton op.kind ++ op.line ++ "\n")) := by
  cases ops with
  | nil => exact absurd rfl hne
  | cons op0 rest =>
      simp only [formatHunk, countsFold_spec, List.headD_cons, Nat.zero_add]
      rw [renderFold_spec]

/-- C7 witness: the rendering theorem applied to a concrete one-operation
hunk. -/
theorem C7_formatHunk_render_witness :
    ([⟨'-', "x", 0, 0⟩] : List diffOp) ≠ [] ∧
    formatHunk [⟨'-', "x", 0, 0⟩] =
      "@@ -" ++ toString ((([⟨'-', "x", 0, 0⟩] : List diffOp).headD default).posA + 1) ++ ","
        ++ toString (([⟨'-', "x", 0, 0⟩] : List diffOp).filter
            (fun op => op.kind = ' ' ∨ op.kind = '-')).length
        ++ " +" ++ toString ((([⟨'-', "x", 0, 0⟩] : List diffOp).headD default).posB + 1) ++ ","
        ++ toString (([⟨'-', "x", 0, 0⟩] : List diffOp).filter
            (fun op => op.kind = ' ' ∨ op.kind = '+')).length
        ++ " @@\n"
        ++ String.join (([⟨'-', "x", 0, 0⟩] : List diffOp).map
            (fun op => String.singleton op.kind ++ op.line ++ "\n")) :=
  ⟨by decide, C7_formatHunk_render [⟨'-', "x", 0, 0⟩] (by decide)⟩

theorem hunkLoop_skip_equal (ops : List diffOp) :
    ∀ (l : List diffOp) (n : Nat) (s : HunkState),
      (∀ op ∈ l, op.kind = ' ') → hunkLoop ops n l s = s := by
  intro l
  induction l with
  | nil => intro n s _; rfl
  | cons op rest ih =>
      intro n s h
      have hop : op.kind = ' ' := h op (List.mem_cons_self op rest)
      have hstep : hunkStep ops s n op = s := by rw [hunkStep, if_pos hop]
      rw [hunkLoop, hstep]
      exact ih (n + 1) s (fun op' h' => h op' (List.mem_cons_of_mem op h'))

theorem hunkLoop_append (ops : List diffOp) :
    ∀ (l₁ l₂ : List diffOp) (n : Nat) (s : HunkState),
      hunkLoop ops n (l₁ ++ l₂) s =
        hunkLoop ops (n + l₁.length) l₂ (hunkLoop ops n l₁ s) := by
  intro l₁
  induction l₁ with
  | nil => intro l₂ n s; simp [hunkLoop]
  | cons op rest ih =>
      intro l₂ n s
      simp only [List.cons_append, hunkLoop, List.length_cons, List.append_eq]
      rw [ih l₂ (n + 1) (hunkStep ops s n op)]
      congr 1
      omega

theorem hunkStep_first_change (ops : List diffOp) (s : HunkState) (i : Nat) (op : diffOp)
    (hk : op.kind ≠ ' ') (hlc : s.lastChange = none) :
    hunkStep ops s i op =
      ⟨s.hunks, goSlice ops (i - ctx) i ++ [op], some i⟩ := by
  rw [hunkStep, if_neg hk, hlc]

theorem hunkStep_merge (ops : List diffOp) (s : HunkState) (i : Nat) (op : diffOp)
    (lc : Nat) (hk : op.kind ≠ ' ') (hlc : s.lastChange = some lc)
    (hgap : ¬ i - lc > 2 * ctx) :
    hunkStep ops s i op =
      ⟨s.hunks, (s.hunkOps ++ goSlice ops (lc + 1) i) ++ [op], some i⟩ := by
  rw [hunkStep, if_neg hk, hlc]
  simp only [if_neg hgap]

theorem hunkStep_flush (ops : List diffOp) (s : HunkState) (i : Nat) (op : diffOp)
    (lc : Nat) (hk : op.kind ≠ ' ') (hlc : s.lastChange = some lc)
    (hgap : i - lc > 2 * ctx) :
    hunkStep ops s i op =
      ⟨s.hunks ++
          [formatHunk (s.hunkOps ++ goSlice ops (lc + 1) (min (lc + ctx + 1) ops.length))],
        goSlice ops (i - ctx) i ++ [op], some i⟩ := by
  rw [hunkStep, if_neg hk, hlc]
  simp only [if_pos hgap]

theorem buildHunksOps_run (ops : List diffOp) (hne : ops ≠ [])
    (hch : ∃ op ∈ ops, op.kind ≠ ' ') :
    buildHunksOps ops = flushFinal ops (hunkLoop ops 0 ops ⟨[], [], none⟩) := by
  have hany : ops.any (fun op => op.kind ≠ ' ') = true := by
    simpa [List.any_eq_true] using hch
  rw [buildHunksOps, if_neg hne, if_pos hany]

/-- C6: with a single non-equal operation in the edit script, the emitted
hunk is exactly the change surrounded by the last three preceding equal
operations and the first three following ones (fewer near a boundary,
where natural truncation applies). -/
theorem C6_context_window (e₁ e₂ : List diffOp) (c : diffOp)
    (h₁ : ∀ op ∈ e₁, op.kind = ' ') (h₂ : ∀ op ∈ e₂, op.kind = ' ')
    (hc : c.kind ≠ ' ') :
    buildHunksOps (e₁ ++ c :: e₂) =
      [formatHunk (e₁.drop (e₁.length - ctx) ++ c :: e₂.take ctx)] ∧
    (e₁.drop (e₁.length - ctx)).length = min ctx e₁.length ∧
    (e₂.take ctx).length = min ctx e₂.length := by
  have hlen : (e₁ ++ c :: e₂).length = e₁.length + (e₂.length + 1) := by
    simp
  have hne : e₁ ++ c :: e₂ ≠ [] := by
    intro h
    have := congrArg List.length h
    rw [hlen] at this
    simp at this
  have hch : ∃ op ∈ e₁ ++ c :: e₂, op.kind ≠ ' ' :=
    ⟨c, List.mem_append_right e₁ (List.mem_cons_self c e₂), hc⟩
  have hA : goSlice (e₁ ++ c :: e₂) (e₁.length - ctx) e₁.length =
      e₁.drop (e₁.length - ctx) := by
    rw [goSlice, List.take_left]
  have hB : goSlice (e₁ ++ c :: e₂) (e₁.length + 1)
      (min (e₁.length + ctx + 1) (e₁ ++ c :: e₂).length) = e₂.take ctx := by
    have hmin : min (e₁.length + ctx + 1) (e₁ ++ c :: e₂).length =
        (e₁.length + 1) + min ctx e₂.length := by
      rw [hlen]
      simp only [ctx]
      omega
    rw [goSlice, hmin, List.append_cons e₁ c e₂]
    have h1 : (e₁ ++ [c]).length = e₁.length + 1 := by simp
    rw [← h1, List.take_append, List.drop_append_of_le_length (le_refl _)]
    simp only [List.drop_length, List.nil_append]
    rw [List.take_eq_take]
    omega
  refine ⟨?_, by simp; omega, by simp⟩
  rw [buildHunksOps_run _ hne hch, hunkLoop_append, hunkLoop_skip_equal _ e₁ 0 _ h₁,
    Nat.zero_add, hunkLoop,
    hunkStep_first_change _ _ _ _ hc rfl, hunkLoop_skip_equal _ e₂ _ _ h₂]
  rw [flushFinal]
  simp only [hA, hB]
  simp [List.append_assoc]

/-- C3 (amended): two non-equal operations whose positions in the edit
script differ by more than two context windows, that is separated by six or
more equal operations, land in two distinct hunks; separated by five or
fewer equal operations they merge into one hunk. -/
theorem C3_hunk_gap (e₁ mid e₂ : List diffOp) (c₁ c₂ : diffOp)
    (h₁ : ∀ op ∈ e₁, op.kind = ' ') (hm : ∀ op ∈ mid, op.kind = ' ')
    (h₂ : ∀ op ∈ e₂, op.kind = ' ') (hc₁ : c₁.kind ≠ ' ') (hc₂ : c₂.kind ≠ ' ') :
    (2 * ctx ≤ mid.length →
      (buildHunksOps (e₁ ++ (c₁ :: (mid ++ (c₂ :: e₂))))).length = 2) ∧
    (mid.length < 2 * ctx →
      (buildHunksOps (e₁ ++ (c₁ :: (mid ++ (c₂ :: e₂))))).length = 1) := by
  have hne : e₁ ++ (c₁ :: (mid ++ (c₂ :: e₂))) ≠ [] := by
    intro h
    have := congrArg List.length h
    simp at this
  have hch : ∃ op ∈ e₁ ++ (c₁ :: (mid ++ (c₂ :: e₂))), op.kind ≠ ' ' := by
    refine ⟨c₁, ?_, hc₁⟩
    exact List.mem_append_right e₁
      (List.mem_append_left (c₂ :: e₂) (List.mem_cons_self c₁ mid))
  have hrun : hunkLoop (e₁ ++ (c₁ :: (mid ++ (c₂ :: e₂)))) 0 (e₁ ++ (c₁ :: (mid ++ (c₂ :: e₂))))
      ⟨[], [], none⟩ =
      hunkStep (e₁ ++ (c₁ :: (mid ++ (c₂ :: e₂))))
        ⟨[], goSlice (e₁ ++ (c₁ :: (mid ++ (c₂ :: e₂)))) (e₁.length - ctx) e₁.length ++ [c₁],
          some e₁.length⟩
        (e₁.length + 1 + mid.length) c₂ := by
    rw [hunkLoop_append, hunkLoop_skip_equal _ e₁ 0 _ h₁, Nat.zero_add,
      hunkLoop, hunkStep_first_change _ _ _ _ hc₁ rfl, hunkLoop_append,
      hunkLoop_skip_equal _ mid _ _ hm, hunkLoop,
      hunkLoop_skip_equal _ e₂ _ _ h₂]
  constructor
  · intro hgapBig
    have hgap : e₁.length + 1 + mid.length - e₁.length > 2 * ctx := by
      simp only [ctx] at hgapBig ⊢
      omega
    rw [buildHunksOps_run _ hne hch, hrun,
      hunkStep_flush _ _ _ _ e₁.length hc₂ rfl hgap, flushFinal]
    rfl
  · intro hgapSmall
    have hgap : ¬ e₁.length + 1 + mid.length - e₁.length > 2 * ctx := by
      simp only [ctx] at hgapSmall ⊢
      omega
    rw [buildHunksOps_run _ hne hch, hrun,
      hunkStep_merge _ _ _ _ e₁.length hc₂ rfl hgap, flushFinal]
    rfl

/-- C3 counterexample: two change regions separated by exactly six
unchanged lines (the edit script shown literally: changes at indices 0, 1
and 8, 9 with six equal operations between) produce two hunks, not the
single merged hunk the claim requires for a six-line separation. -/
theorem C3_counterexample :
    buildOps ["a0", "c1", "c2", "c3", "c4", "c5", "c6", "a7"]
      ["b0", "c1", "c2", "c3", "c4", "c5", "c6", "b7"]
      (lcsTable ["a0", "c1", "c2", "c3", "c4", "c5", "c6", "a7"]
        ["b0", "c1", "c2", "c3", "c4", "c5", "c6", "b7"]) =
      [⟨'-', "a0", 0, 0⟩, ⟨'+', "b0", 1, 0⟩,
       ⟨' ', "c1", 1, 1⟩, ⟨' ', "c2", 2, 2⟩, ⟨' ', "c3", 3, 3⟩,
       ⟨' ', "c4", 4, 4⟩, ⟨' ', "c5", 5, 5⟩, ⟨' ', "c6", 6, 6⟩,
       ⟨'-', "a7", 7, 7⟩, ⟨'+', "b7", 8, 7⟩] ∧
    (buildHunks ["a0", "c1", "c2", "c3", "c4", "c5", "c6", "a7"]
      ["b0", "c1", "c2", "c3", "c4", "c5", "c6", "b7"]
      (lcsTable ["a0", "c1", "c2", "c3", "c4", "c5", "c6", "a7"]
        ["b0", "c1", "c2", "c3", "c4", "c5", "c6", "b7"])).length = 2 := by
  have htab : lcsTable ["a0", "c1", "c2", "c3", "c4", "c5", "c6", "a7"]
      ["b0", "c1", "c2", "c3", "c4", "c5", "c6", "b7"] =
      [[6, 6, 5, 4, 3, 2, 1, 0, 0],
       [6, 6, 5, 4, 3, 2, 1, 0, 0],
       [5, 5, 5, 4, 3, 2, 1, 0, 0],
       [4, 4, 4, 4, 3, 2, 1, 0, 0],
       [3, 3, 3, 3, 3, 2, 1, 0, 0],
       [2, 2, 2, 2, 2, 2, 1, 0, 0],
       [1, 1, 1, 1, 1, 1, 1, 0, 0],
       [0, 0, 0, 0, 0, 0, 0, 0, 0],
       [0, 0, 0, 0, 0, 0, 0, 0, 0]] := by decide
  have hops : buildOps ["a0", "c1", "c2", "c3", "c4", "c5", "c6", "a7"]
      ["b0", "c1", "c2", "c3", "c4", "c5", "c6", "b7"]
      (lcsTable ["a0", "c1", "c2", "c3", "c4", "c5", "c6", "a7"]
        ["b0", "c1", "c2", "c3", "c4", "c5", "c6", "b7"]) =
      [⟨'-', "a0", 0, 0⟩, ⟨'+', "b0", 1, 0⟩,
       ⟨' ', "c1", 1, 1⟩, ⟨' ', "c2", 2, 2⟩, ⟨' ', "c3", 3, 3⟩,
       ⟨' ', "c4", 4, 4⟩, ⟨' ', "c5", 5, 5⟩, ⟨' ', "c6", 6, 6⟩,
       ⟨'-', "a7", 7, 7⟩, ⟨'+', "b7", 8, 7⟩] := by
    rw [buildOps, htab]
    simp [buildOpsAux, deleteRest, insertRest, List.getD]
  refine ⟨hops, ?_⟩
  rw [buildHunks, hops]
  decide

/-- C3 witness: the gap theorem applied to a concrete edit script with two
changes separated by six equal operations. -/
theorem C3_hunk_gap_witness :
    ((∀ op ∈ ([] : List diffOp), op.kind = ' ') ∧
     (∀ op ∈ ([⟨' ', "m1", 1, 1⟩, ⟨' ', "m2", 2, 2⟩, ⟨' ', "m3", 3, 3⟩,
        ⟨' ', "m4", 4, 4⟩, ⟨' ', "m5", 5, 5⟩, ⟨' ', "m6", 6, 6⟩] : List diffOp),
        op.kind = ' ') ∧
     (⟨'-', "x", 0, 0⟩ : diffOp).kind ≠ ' ' ∧
     (⟨'+', "y", 7, 7⟩ : diffOp).kind ≠ ' ') ∧
    ((2 * ctx ≤ ([⟨' ', "m1", 1, 1⟩, ⟨' ', "m2", 2, 2⟩, ⟨' ', "m3", 3, 3⟩,
        ⟨' ', "m4", 4, 4⟩, ⟨' ', "m5", 5, 5⟩, ⟨' ', "m6", 6, 6⟩] : List diffOp).length →
      (buildHunksOps ([] ++ ((⟨'-', "x", 0, 0⟩ : diffOp) ::
        (([⟨' ', "m1", 1, 1⟩, ⟨' ', "m2", 2, 2⟩, ⟨' ', "m3", 3, 3⟩,
          ⟨' ', "m4", 4, 4⟩, ⟨' ', "m5", 5, 5⟩, ⟨' ', "m6", 6, 6⟩] : List diffOp) ++
          ((⟨'+', "y", 7, 7⟩ : diffOp) :: []))))).length = 2) ∧
     (([⟨' ', "m1", 1, 1⟩, ⟨' ', "m2", 2, 2⟩, ⟨' ', "m3", 3, 3⟩,
        ⟨' ', "m4", 4, 4⟩, ⟨' ', "m5", 5, 5⟩, ⟨' ', "m6", 6, 6⟩] : List diffOp).length <
          2 * ctx →
      (buildHunksOps ([] ++ ((⟨'-', "x", 0, 0⟩ : diffOp) ::
        (([⟨' ', "m1", 1, 1⟩, ⟨' ', "m2", 2, 2⟩, ⟨' ', "m3", 3, 3⟩,
          ⟨' ', "m4", 4, 4⟩, ⟨' ', "m5", 5, 5⟩, ⟨' ', "m6", 6, 6⟩] : List diffOp) ++
          ((⟨'+', "y", 7, 7⟩ : diffOp) :: []))))).length = 1)) :=
  ⟨⟨by decide, by decide, by decide, by decide⟩,
   C3_hunk_gap [] [⟨' ', "m1", 1, 1⟩, ⟨' ', "m2", 2, 2⟩, ⟨' ', "m3", 3, 3⟩,
      ⟨' ', "m4", 4, 4⟩, ⟨' ', "m5", 5, 5⟩, ⟨' ', "m6", 6, 6⟩] []
      ⟨'-', "x", 0, 0⟩ ⟨'+', "y", 7, 7⟩
      (by decide) (by decide) (by decide) (by decide) (by decide)⟩

/-- C6 witness: the context-window theorem applied to a concrete edit
script with four equal operations on each side of one change. -/
theorem C6_context_window_witness :
    ((∀ op ∈ ([⟨' ', "p1", 0, 0⟩, ⟨' ', "p2", 1, 1⟩, ⟨' ', "p3", 2, 2⟩,
        ⟨' ', "p4", 3, 3⟩] : List diffOp), op.kind = ' ') ∧
     (∀ op ∈ ([⟨' ', "q1", 5, 5⟩, ⟨' ', "q2", 6, 6⟩, ⟨' ', "q3", 7, 7⟩,
        ⟨' ', "q4", 8, 8⟩] : List diffOp), op.kind = ' ') ∧
     (⟨'-', "x", 4, 4⟩ : diffOp).kind ≠ ' ') ∧
    (buildHunksOps (([⟨' ', "p1", 0, 0⟩, ⟨' ', "p2", 1, 1⟩, ⟨' ', "p3", 2, 2⟩,
        ⟨' ', "p4", 3, 3⟩] : List diffOp) ++ (⟨'-', "x", 4, 4⟩ : diffOp) ::
        ([⟨' ', "q1", 5, 5⟩, ⟨' ', "q2", 6, 6⟩, ⟨' ', "q3", 7, 7⟩,
          ⟨' ', "q4", 8, 8⟩] : List diffOp)) =
      [formatHunk (([⟨' ', "p1", 0, 0⟩, ⟨' ', "p2", 1, 1⟩, ⟨' ', "p3", 2, 2⟩,
          ⟨' ', "p4", 3, 3⟩] : List diffOp).drop
            (([⟨' ', "p1", 0, 0⟩, ⟨' ', "p2", 1, 1⟩, ⟨' ', "p3", 2, 2⟩,
              ⟨' ', "p4", 3, 3⟩] : List diffOp).length - ctx) ++
          (⟨'-', "x", 4, 4⟩ : diffOp) ::
          ([⟨' ', "q1", 5, 5⟩, ⟨' ', "q2", 6, 6⟩, ⟨' ', "q3", 7, 7⟩,
            ⟨' ', "q4", 8, 8⟩] : List diffOp).take ctx)] ∧
     (([⟨' ', "p1", 0, 0⟩, ⟨' ', "p2", 1, 1⟩, ⟨' ', "p3", 2, 2⟩,
        ⟨' ', "p4", 3, 3⟩] : List diffOp).drop
          (([⟨' ', "p1", 0, 0⟩, ⟨' ', "p2", 1, 1⟩, ⟨' ', "p3", 2, 2⟩,
            ⟨' ', "p4", 3, 3⟩] : List diffOp).length - ctx)).length =
        min ctx ([⟨' ', "p1", 0, 0⟩, ⟨' ', "p2", 1, 1⟩, ⟨' ', "p3", 2, 2⟩,
          ⟨' ', "p4", 3, 3⟩] : List diffOp).length ∧
     (([⟨' ', "q1", 5, 5⟩, ⟨' ', "q2", 6, 6⟩, ⟨' ', "q3", 7, 7⟩,
        ⟨' ', "q4", 8, 8⟩] : List diffOp).take ctx).length =
        min ctx ([⟨' ', "q1", 5, 5⟩, ⟨' ', "q2", 6, 6⟩, ⟨' ', "q3", 7, 7⟩,
          ⟨' ', "q4", 8, 8⟩] : List diffOp).length) :=
  ⟨⟨by decide, by decide, by decide⟩,
   C6_context_window [⟨' ', "p1", 0, 0⟩, ⟨' ', "p2", 1, 1⟩, ⟨' ', "p3", 2, 2⟩,
      ⟨' ', "p4", 3, 3⟩]
     [⟨' ', "q1", 5, 5⟩, ⟨' ', "q2", 6, 6⟩, ⟨' ', "q3", 7, 7⟩, ⟨' ', "q4", 8, 8⟩]
     ⟨'-', "x", 4, 4⟩ (by decide) (by decide) (by decide)⟩

/-- A hunk string that is the rendering of a nonempty contiguous sub-list
of the edit script containing at least one non-equal operation. -/
def goodHunk (ops : List diffOp) (h : String) : Prop :=
  ∃ s e, s < e ∧ e ≤ ops.length ∧ h = formatHunk (goSlice ops s e) ∧
    ∃ op ∈ goSlice ops s e, op.kind ≠ ' '

/-- Invariant of the hunk-assembly loop at position `n`: all finished hunks
are well formed, and while a hunk is open its operations are exactly the
slice of the script from its start to just past the last change, which is a
change and lies before `n`. -/
def stateInv (ops : List diffOp) (n : Nat) (st : HunkState) : Prop :=
  (∀ h ∈ st.hunks, goodHunk ops h) ∧
  (match st.lastChange with
   | none => st.hunkOps = []
   | some lc => lc < n ∧ lc < ops.length ∧
       ∃ s, s ≤ lc ∧ st.hunkOps = goSlice ops s (lc + 1) ∧
         ∃ op ∈ st.hunkOps, op.kind ≠ ' ')

theorem take_succ_of_drop_cons {l rest : List diffOp} {op : diffOp} {i : Nat}
    (h : l.drop i = op :: rest) : l.take (i + 1) = l.take i ++ [op] := by
  have hlt : i < l.length := by
    by_contra hge
    rw [List.drop_eq_nil_of_le (le_of_not_lt hge)] at h
    exact List.noConfusion h
  have hsplit : l = l.take i ++ (op :: rest) := by
    conv_lhs => rw [← List.take_append_drop i l]
    rw [h]
  have hlen : (l.take i).length = i := by simp [List.length_take]; omega
  have hgoal : l.take (i + 1) = (l.take i ++ (op :: rest)).take ((l.take i).length + 1) := by
    rw [hlen, ← hsplit]
  rw [hgoal, List.take_append 1]
  rfl

theorem goSlice_snoc {ops rest : List diffOp} {op : diffOp} {i : Nat} (s : Nat)
    (hdrop : ops.drop i = op :: rest) (hs : s ≤ i) :
    goSlice ops s (i + 1) = goSlice ops s i ++ [op] := by
  have hlt : i < ops.length := by
    by_contra hge
    rw [List.drop_eq_nil_of_le (le_of_not_lt hge)] at hdrop
    exact List.noConfusion hdrop
  have hlen : s ≤ (ops.take i).length := by
    rw [List.length_take]
    omega
  rw [goSlice, goSlice, take_succ_of_drop_cons hdrop,
    List.drop_append_of_le_length hlen]

theorem goSlice_concat (l : List diffOp) (s m e : Nat) (h1 : s ≤ m) (h2 : m ≤ e) :
    goSlice l s m ++ goSlice l m e = goSlice l s e := by
  rcases le_or_lt m l.length with hm | hm
  · have hmt : l.take m = (l.take e).take m := by
      rw [List.take_take, min_eq_left h2]
    rw [goSlice, goSlice, goSlice, hmt]
    have hlen : ((l.take e).take m).length = m := by
      simp [List.length_take]
      omega
    conv_rhs => rw [← List.take_append_drop m (l.take e)]
    rw [List.drop_append_of_le_length (by omega : s ≤ ((l.take e).take m).length)]
  · have h3 : l.take m = l := List.take_of_length_le (le_of_lt hm)
    have h4 : (l.take e).drop m = [] := by
      apply List.drop_eq_nil_of_le
      simp [List.length_take]
      omega
    rw [goSlice, goSlice, goSlice, h3, h4, List.append_nil,
      List.take_of_length_le (by omega : l.length ≤ e)]

theorem stateInv_step (ops : List diffOp) (n : Nat) (st : HunkState) (op : diffOp)
    (rest : List diffOp) (hdrop : ops.drop n = op :: rest)
    (hinv : stateInv ops n st) : stateInv ops (n + 1) (hunkStep ops st n op) := by
  have hnlen : n < ops.length := by
    by_contra hge
    rw [List.drop_eq_nil_of_le (le_of_not_lt hge)] at hdrop
    exact List.noConfusion hdrop
  obtain ⟨hhunks, hopen⟩ := hinv
  by_cases hk : op.kind = ' '
  · rw [hunkStep, if_pos hk]
    refine ⟨hhunks, ?_⟩
    cases hlc : st.lastChange with
    | none => rw [hlc] at hopen; exact hopen
    | some lc =>
        rw [hlc] at hopen
        exact ⟨by omega, hopen.2.1, hopen.2.2⟩
  · cases hlc : st.lastChange with
    | none =>
        rw [hunkStep_first_change ops st n op hk hlc]
        refine ⟨hhunks, n.lt_succ_self, hnlen, n - ctx, Nat.sub_le n ctx, ?_, ?_⟩
        · exact (goSlice_snoc (n - ctx) hdrop (Nat.sub_le n ctx)).symm
        · exact ⟨op, List.mem_append_right _ (List.mem_singleton.mpr rfl), hk⟩
    | some lc =>
        rw [hlc] at hopen
        obtain ⟨hlt, hlcl, s, hs, hops, op', hop', hop'k⟩ := hopen
        by_cases hgap : n - lc > 2 * ctx
        · rw [hunkStep_flush ops st n op lc hk hlc hgap]
          refine ⟨?_, n.lt_succ_self, hnlen, n - ctx, Nat.sub_le n ctx,
            (goSlice_snoc (n - ctx) hdrop (Nat.sub_le n ctx)).symm,
            op, List.mem_append_right _ (List.mem_singleton.mpr rfl), hk⟩
          intro h hmem
          rcases List.mem_append.mp hmem with hold | hnew
          · exact hhunks h hold
          · rw [List.mem_singleton.mp hnew]
            have hcat : st.hunkOps ++
                goSlice ops (lc + 1) (min (lc + ctx + 1) ops.length) =
                goSlice ops s (min (lc + ctx + 1) ops.length) := by
              rw [hops]
              exact goSlice_concat ops s (lc + 1) (min (lc + ctx + 1) ops.length)
                (by omega) (by omega)
            refine ⟨s, min (lc + ctx + 1) ops.length, by omega, min_le_right _ _,
              by rw [hcat], ?_⟩
            rw [← hcat]
            exact ⟨op', List.mem_append_left _ hop', hop'k⟩
        · rw [hunkStep_merge ops st n op lc hk hlc hgap]
          refine ⟨hhunks, n.lt_succ_self, hnlen, s, by omega, ?_, ?_⟩
          · rw [hops, goSlice_concat ops s (lc + 1) n (by omega) (by omega),
              goSlice_snoc s hdrop (by omega)]
          · exact ⟨op, List.mem_append_right _ (List.mem_singleton.mpr rfl), hk⟩

theorem hunkLoop_inv (ops : List diffOp) :
    ∀ (l : List diffOp) (n : Nat) (st : HunkState),
      ops.drop n = l → stateInv ops n st →
      stateInv ops (n + l.length) (hunkLoop ops n l st) := by
  intro l
  induction l with
  | nil => intro n st _ hinv; simpa [hunkLoop] using hinv
  | cons op rest ih =>
      intro n st hdrop hinv
      rw [hunkLoop]
      have hdrop' : ops.drop (n + 1) = rest := by
        rw [← List.tail_drop, hdrop]
        rfl
      have := ih (n + 1) (hunkStep ops st n op) hdrop'
        (stateInv_step ops n st op rest hdrop hinv)
      have harith : n + 1 + rest.length = n + (rest.length + 1) := by omega
      rw [harith] at this
      simpa using this

theorem flushFinal_good (ops : List diffOp) (n : Nat) (st : HunkState)
    (hinv : stateInv ops n st) : ∀ h ∈ flushFinal ops st, goodHunk ops h := by
  obtain ⟨hhunks, hopen⟩ := hinv
  intro h hmem
  cases hlc : st.lastChange with
  | none =>
      rw [flushFinal, hlc] at hmem
      exact hhunks h hmem
  | some lc =>
      rw [hlc] at hopen
      obtain ⟨hlt, hlcl, s, hs, hops, op', hop', hop'k⟩ := hopen
      rw [flushFinal, hlc] at hmem
      rcases List.mem_append.mp hmem with hold | hnew
      · exact hhunks h hold
      · rw [List.mem_singleton.mp hnew]
        have hcat : st.hunkOps ++
            goSlice ops (lc + 1) (min (lc + ctx + 1) ops.length) =
            goSlice ops s (min (lc + ctx + 1) ops.length) := by
          rw [hops]
          exact goSlice_concat ops s (lc + 1) (min (lc + ctx + 1) ops.length)
            (by omega) (by omega)
        refine ⟨s, min (lc + ctx + 1) ops.length, by omega, min_le_right _ _,
          by rw [hcat], ?_⟩
        rw [← hcat]
        exact ⟨op', List.mem_append_left _ hop', hop'k⟩

theorem buildHunksOps_good (ops : List diffOp) :
    ∀ h ∈ buildHunksOps ops, goodHunk ops h := by
  intro h hmem
  rcases eq_or_ne ops [] with rfl | hne
  · simp [buildHunksOps] at hmem
  · by_cases hany : ops.any (fun op => op.kind ≠ ' ') = true
    · rw [buildHunksOps, if_neg hne, if_pos hany] at hmem
      have hinit : stateInv ops 0 ⟨[], [], none⟩ := by
        constructor
        · intro h hmem'
          exact absurd hmem' (List.not_mem_nil h)
        · exact rfl
      have hfin := hunkLoop_inv ops ops 0 ⟨[], [], none⟩ rfl hinit
      exact flushFinal_good ops _ _ hfin h hmem
    · rw [buildHunksOps, if_neg hne, if_neg hany] at hmem
      exact absurd hmem (List.not_mem_nil h)

/-- C9: every hunk emitted by buildHunks is the rendering of a nonempty
contiguous sub-list (a slice) of the edit script that contains at least one
non-equal operation; a hunk of only equal operations is never emitted. -/
theorem C9_hunks_wellformed (a b : List String) (lcs : List (List Nat)) :
    (buildHunks a b lcs).Forall (fun h => ∃ s e, s < e ∧
      e ≤ (buildOps a b lcs).length ∧
      h = formatHunk (goSlice (buildOps a b lcs) s e) ∧
      ∃ op ∈ goSlice (buildOps a b lcs) s e, op.kind ≠ ' ') := by
  rw [List.forall_iff_forall_mem]
  intro h hmem
  exact buildHunksOps_good (buildOps a b lcs) h hmem

theorem strJoin_cons (x : String) (l : List String) :
    String.join (x :: l) = x ++ String.join l := by
  have haux : ∀ (l : List String) (s : String),
      l.foldl (fun r t => r ++ t) s = s ++ l.foldl (fun r t => r ++ t) "" := by
    intro l
    induction l with
    | nil => intro s; simp
    | cons u l ihl =>
        intro s
        simp only [List.foldl_cons]
        rw [ihl (s ++ u), ihl ("" ++ u)]
        simp [String.append_assoc]
  simp only [String.join, List.foldl_cons]
  rw [haux l ("" ++ x)]
  simp

theorem formatHunk_starts (op0 : diffOp) (rest : List diffOp) :
    ∃ r, formatHunk (op0 :: rest) = "@@" ++ r := by
  refine ⟨" -" ++ toString (op0.posA + 1) ++ "," ++
    toString ((op0 :: rest).foldl
      (fun (c : Nat × Nat) op =>
        if op.kind = ' ' then (c.1 + 1, c.2 + 1)
        else if op.kind = '-' then (c.1 + 1, c.2)
        else if op.kind = '+' then (c.1, c.2 + 1)
        else c) (0, 0)).1 ++ " +" ++ toString (op0.posB + 1) ++ "," ++
    toString ((op0 :: rest).foldl
      (fun (c : Nat × Nat) op =>
        if op.kind = ' ' then (c.1 + 1, c.2 + 1)
        else if op.kind = '-' then (c.1 + 1, c.2)
        else if op.kind = '+' then (c.1, c.2 + 1)
        else c) (0, 0)).2 ++ " @@\n" ++
    String.join ((op0 :: rest).map
      (fun op => String.singleton op.kind ++ op.line ++ "\n")), ?_⟩
  simp only [formatHunk]
  rw [renderFold_spec]
  simp only [String.append_assoc]
  rw [show ("@@ -" : String) = "@@" ++ " -" from by decide, String.append_assoc]

theorem goSlice_ne_nil {ops : List diffOp} {s e : Nat} (hse : s < e)
    (he : e ≤ ops.length) : goSlice ops s e ≠ [] := by
  intro h
  have := congrArg List.length h
  rw [goSlice] at this
  simp [List.length_take] at this
  omega

/-- C8: on texts whose line sequences differ, the output is exactly the two
label header lines followed by all hunks in order, and it contains the
literal substrings three dashes, three pluses and at least one double
at-sign. -/
theorem C8_output_shape (a b labelA labelB : String)
    (hne : splitLines a ≠ splitLines b) :
    unifiedDiff a b labelA labelB =
      ("--- " ++ labelA ++ "\n") ++ ("+++ " ++ labelB ++ "\n") ++
        String.join (buildHunks (splitLines a) (splitLines b)
          (lcsTable (splitLines a) (splitLines b))) ∧
    (∃ r, unifiedDiff a b labelA labelB = "---" ++ r) ∧
    (∃ p r, unifiedDiff a b labelA labelB = p ++ "+++" ++ r) ∧
    (∃ p r, unifiedDiff a b labelA labelB = p ++ "@@" ++ r) := by
  have hchange : ∃ op ∈ buildOps (splitLines a) (splitLines b)
      (lcsTable (splitLines a) (splitLines b)), op.kind ≠ ' ' := by
    by_contra hall
    push_neg at hall
    have h1 := buildOpsAux_replayKeepA (lcsTable (splitLines a) (splitLines b))
      (splitLines a) (splitLines b) 0 0
    have h2 := buildOpsAux_replayKeepB (lcsTable (splitLines a) (splitLines b))
      (splitLines a) (splitLines b) 0 0
    have heq := replay_eq_of_all_equal _ hall
    rw [buildOps] at heq
    exact hne ((h1.symm.trans heq).trans h2)
  have hhunks : buildHunks (splitLines a) (splitLines b)
      (lcsTable (splitLines a) (splitLines b)) ≠ [] :=
    buildHunksOps_ne_nil _ hchange
  have hout : unifiedDiff a b labelA labelB =
      (("--- " ++ labelA ++ "\n") ++ ("+++ " ++ labelB ++ "\n")) ++
        String.join (buildHunks (splitLines a) (splitLines b)
          (lcsTable (splitLines a) (splitLines b))) := by
    rw [unifiedDiff, if_neg hhunks]
  refine ⟨hout, ?_, ?_, ?_⟩
  · refine ⟨" " ++ labelA ++ "\n" ++ ("+++ " ++ labelB ++ "\n") ++
      String.join (buildHunks (splitLines a) (splitLines b)
        (lcsTable (splitLines a) (splitLines b))), ?_⟩
    rw [hout, show ("--- " : String) = "---" ++ " " from by decide]
    simp only [String.append_assoc]
  · refine ⟨"--- " ++ labelA ++ "\n",
      " " ++ labelB ++ "\n" ++ String.join (buildHunks (splitLines a) (splitLines b)
        (lcsTable (splitLines a) (splitLines b))), ?_⟩
    rw [hout]
    simp only [String.append_assoc]
    rw [show ("+++ " : String) = "+++" ++ " " from by decide, String.append_assoc]
  · obtain ⟨h, hs, hhd⟩ : ∃ h hs, buildHunks (splitLines a) (splitLines b)
        (lcsTable (splitLines a) (splitLines b)) = h :: hs := by
      cases hh : buildHunks (splitLines a) (splitLines b)
          (lcsTable (splitLines a) (splitLines b)) with
      | nil => exact absurd hh hhunks
      | cons x xs => exact ⟨x, xs, rfl⟩
    have hgood : goodHunk (buildOps (splitLines a) (splitLines b)
        (lcsTable (splitLines a) (splitLines b))) h := by
      apply buildHunksOps_good
      rw [← buildHunks, hhd]
      exact List.mem_cons_self h hs
    obtain ⟨s, e, hse, he, hfmt, -⟩ := hgood
    obtain ⟨op0, rest2, hcons⟩ :=
      List.exists_cons_of_ne_nil (goSlice_ne_nil hse he)
    obtain ⟨r0, hr0⟩ := formatHunk_starts op0 rest2
    have hh0 : h = "@@" ++ r0 := by rw [hfmt, hcons, hr0]
    refine ⟨("--- " ++ labelA ++ "\n") ++ ("+++ " ++ labelB ++ "\n"),
      r0 ++ String.join hs, ?_⟩
    rw [hout, hhd, strJoin_cons, hh0]
    simp only [String.append_assoc]

/-- C8 witness: the output-shape theorem applied to two concrete one-line
texts that differ. -/
theorem C8_output_shape_witness :
    splitLines "x" ≠ splitLines "y" ∧
    (unifiedDiff "x" "y" "fileA" "fileB" =
      ("--- " ++ "fileA" ++ "\n") ++ ("+++ " ++ "fileB" ++ "\n") ++
        String.join (buildHunks (splitLines "x") (splitLines "y")
          (lcsTable (splitLines "x") (splitLines "y"))) ∧
    (∃ r, unifiedDiff "x" "y" "fileA" "fileB" = "---" ++ r) ∧
    (∃ p r, unifiedDiff "x" "y" "fileA" "fileB" = p ++ "+++" ++ r) ∧
    (∃ p r, unifiedDiff "x" "y" "fileA" "fileB" = p ++ "@@" ++ r)) :=
  ⟨by decide, C8_output_shape "x" "y" "fileA" "fileB" (by decide)⟩

theorem splitLinesAux_ne_nil : ∀ (cs acc : List Char), splitLinesAux cs acc ≠ [] := by
  intro cs
  induction cs with
  | nil => intro acc h; exact List.noConfusion h
  | cons c cs ih =>
      intro acc
      rw [splitLinesAux]
      by_cases hc : c = '\n'
      · rw [if_pos hc]; intro h; exact List.noConfusion h
      · rw [if_neg hc]; exact ih (c :: acc)

theorem splitLines_ne_nil (s : String) : splitLines s ≠ [] :=
  splitLinesAux_ne_nil s.data []

theorem lcsLenSpec_singleton_not_mem (x : String) (l : List String) (hx : x ∉ l) :
    lcsLenSpec [x] l = 0 := by
  obtain ⟨w, hw1, hw2, hwlen⟩ := lcsLenSpec_exists [x] l
  rw [← hwlen]
  cases w with
  | nil => rfl
  | cons w0 w' =>
      exfalso
      cases hw1 with
      | cons _ h => exact List.noConfusion (List.sublist_nil.mp h)
      | cons₂ _ h => exact hx (hw2.subset (List.mem_cons_self _ _))

theorem insertRest_kinds : ∀ (l : List String) (i j : Nat),
    ∀ op ∈ insertRest l i j, op.kind = '+' := by
  intro l
  induction l with
  | nil => intro i j op h; exact absurd h (List.not_mem_nil op)
  | cons y ys ih =>
      intro i j op h
      rw [insertRest] at h
      rcases List.mem_cons.mp h with rfl | h'
      · rfl
      · exact ih i (j + 1) op h'

theorem insertRest_filter_minus : ∀ (l : List String) (i j : Nat),
    (insertRest l i j).filter (fun op => op.kind = '-') = [] := by
  intro l
  induction l with
  | nil => intro i j; rfl
  | cons y ys ih =>
      intro i j
      rw [insertRest, List.filter_cons]
      simp only [decide_eq_true_eq]
      have hnk : ¬ (⟨'+', y, i, j⟩ : diffOp).kind = '-' := by
        show ¬ '+' = '-'
        decide
      rw [if_neg hnk]
      exact ih i (j + 1)

theorem goSlice_full (l : List diffOp) : goSlice l 0 l.length = l := by
  rw [goSlice, List.take_length, List.drop_zero]

theorem goSlice_self_nil (l : List diffOp) (n : Nat) : goSlice l n n = [] := by
  rw [goSlice]
  exact List.drop_eq_nil_of_le (by rw [List.length_take]; exact min_le_left _ _)

theorem hunkLoop_dense (ops : List diffOp) :
    ∀ (l : List diffOp) (n s : Nat) (hunks0 : List String),
      (∀ op ∈ l, op.kind ≠ ' ') → ops.drop n = l → s ≤ n → 0 < n →
      hunkLoop ops n l ⟨hunks0, goSlice ops s n, some (n - 1)⟩ =
        ⟨hunks0, goSlice ops s (n + l.length), some (n + l.length - 1)⟩ := by
  intro l
  induction l with
  | nil => intro n s hunks0 _ _ _ _; simp [hunkLoop]
  | cons op rest ih =>
      intro n s hunks0 hl hdrop hs hn
      rw [hunkLoop]
      have hk := hl op (List.mem_cons_self op rest)
      have hstep : hunkStep ops ⟨hunks0, goSlice ops s n, some (n - 1)⟩ n op =
          ⟨hunks0, goSlice ops s (n + 1), some n⟩ := by
        simp only [hunkStep, if_neg hk]
        rw [if_neg (show ¬ n - (n - 1) > 2 * ctx from by simp only [ctx]; omega)]
        have h1 : n - 1 + 1 = n := by omega
        rw [h1, goSlice_self_nil, List.append_nil, ← goSlice_snoc s hdrop hs]
      rw [hstep]
      have hdrop' : ops.drop (n + 1) = rest := by
        rw [← List.tail_drop, hdrop]
        rfl
      have h3 : n + (rest.length + 1) = (n + 1) + rest.length := by omega
      rw [List.length_cons, h3]
      exact ih (n + 1) s hunks0
        (fun op' h' => hl op' (List.mem_cons_of_mem op h')) hdrop' (by omega) (by omega)

theorem splice_mid (B R : String) :
    ∃ P T, (B ++ " @@\n") ++ ("-\n" ++ R) = P ++ ("\n-\n" ++ T) := by
  refine ⟨B ++ " @@", R, ?_⟩
  simp only [String.append_assoc]
  congr 1

theorem formatHunk_del_head (rest : List diffOp) :
    ∃ B R, formatHunk (⟨'-', "", 0, 0⟩ :: rest) = (B ++ " @@\n") ++ ("-\n" ++ R) := by
  refine ⟨"@@ -" ++ toString ((0 : Nat) + 1) ++ "," ++
    toString (((⟨'-', "", 0, 0⟩ : diffOp) :: rest).foldl
      (fun (c : Nat × Nat) op =>
        if op.kind = ' ' then (c.1 + 1, c.2 + 1)
        else if op.kind = '-' then (c.1 + 1, c.2)
        else if op.kind = '+' then (c.1, c.2 + 1)
        else c) (0, 0)).1 ++ " +" ++ toString ((0 : Nat) + 1) ++ "," ++
    toString (((⟨'-', "", 0, 0⟩ : diffOp) :: rest).foldl
      (fun (c : Nat × Nat) op =>
        if op.kind = ' ' then (c.1 + 1, c.2 + 1)
        else if op.kind = '-' then (c.1 + 1, c.2)
        else if op.kind = '+' then (c.1, c.2 + 1)
        else c) (0, 0)).2,
    String.join (rest.map (fun op => String.singleton op.kind ++ op.line ++ "\n")), ?_⟩
  simp only [formatHunk]
  rw [renderFold_spec]
  simp only [List.map_cons]
  rw [strJoin_cons]
  rfl

/-- C10: when text A is the empty string and no line of text B is empty,
the edit script holds exactly one delete, whose line is the empty string
(the phantom line produced by splitting the empty input), the diff output
is nonempty, and it renders a bare minus marker line. -/
theorem C10_empty_input_phantom_delete (tb labelA labelB : String)
    (hb : "" ∉ splitLines tb) :
    ((buildOps (splitLines "") (splitLines tb)
        (lcsTable (splitLines "") (splitLines tb))).filter
          (fun op => op.kind = '-')) = [⟨'-', "", 0, 0⟩] ∧
    unifiedDiff "" tb labelA labelB ≠ "" ∧
    ∃ p r, unifiedDiff "" tb labelA labelB = p ++ ("\n-\n" ++ r) := by
  have hA : splitLines "" = [""] := rfl
  obtain ⟨lb0, lbs, hsplit⟩ : ∃ lb0 lbs, splitLines tb = lb0 :: lbs := by
    cases hsp : splitLines tb with
    | nil => exact absurd hsp (splitLines_ne_nil tb)
    | cons x xs => exact ⟨x, xs, rfl⟩
  rw [hsplit] at hb
  have hb0 : ¬ ("" : String) = lb0 := fun h => hb (List.mem_cons.mpr (Or.inl h))
  have hbs : ("" : String) ∉ lbs := fun h => hb (List.mem_cons.mpr (Or.inr h))
  have hge : ((lcsTable [""] (lb0 :: lbs)).getD (0 + 1) []).getD 0 0 ≥
      ((lcsTable [""] (lb0 :: lbs)).getD 0 []).getD (0 + 1) 0 := by
    rw [lcsTable_getD_spec, lcsTable_getD_spec]
    have h3 : lcsLenSpec (([""] : List String).drop (0 + 1)) ((lb0 :: lbs).drop 0) = 0 := by
      show lcsLenSpec [] (lb0 :: lbs) = 0
      simp [lcsLenSpec]
    have h4 : lcsLenSpec (([""] : List String).drop 0) ((lb0 :: lbs).drop (0 + 1)) = 0 := by
      show lcsLenSpec [""] lbs = 0
      exact lcsLenSpec_singleton_not_mem "" lbs hbs
    rw [h3, h4]
  have hops : buildOps [""] (lb0 :: lbs) (lcsTable [""] (lb0 :: lbs)) =
      ⟨'-', "", 0, 0⟩ :: insertRest (lb0 :: lbs) (0 + 1) 0 := by
    rw [buildOps, buildOpsAux, if_neg hb0, if_pos hge, buildOpsAux]
    exact fun h => List.noConfusion h
  refine ⟨?_, ?_, ?_⟩
  · rw [hA, hsplit, hops, List.filter_cons]
    simp only [decide_eq_true_eq]
    rw [if_pos trivial, insertRest_filter_minus]
  · intro h
    have heq := (unifiedDiff_eq_empty_iff "" tb labelA labelB).mp h
    rw [hA, hsplit] at heq
    injection heq with h1 h2
    exact hb0 h1
  · have hne : (⟨'-', "", 0, 0⟩ :: insertRest (lb0 :: lbs) (0 + 1) 0 : List diffOp) ≠ [] :=
      fun h => List.noConfusion h
    have hch : ∃ op ∈ (⟨'-', "", 0, 0⟩ :: insertRest (lb0 :: lbs) (0 + 1) 0 : List diffOp),
        op.kind ≠ ' ' := ⟨⟨'-', "", 0, 0⟩, List.mem_cons_self _ _, by decide⟩
    have hkinds : ∀ op ∈ insertRest (lb0 :: lbs) (0 + 1) 0, op.kind ≠ ' ' := by
      intro op h
      rw [insertRest_kinds (lb0 :: lbs) (0 + 1) 0 op h]
      decide
    have hloop : hunkLoop (⟨'-', "", 0, 0⟩ :: insertRest (lb0 :: lbs) (0 + 1) 0) 0
        (⟨'-', "", 0, 0⟩ :: insertRest (lb0 :: lbs) (0 + 1) 0) ⟨[], [], none⟩ =
        ⟨[], ⟨'-', "", 0, 0⟩ :: insertRest (lb0 :: lbs) (0 + 1) 0,
          some ((⟨'-', "", 0, 0⟩ :: insertRest (lb0 :: lbs) (0 + 1) 0 : List diffOp).length - 1)⟩ := by
      rw [hunkLoop]
      have hst : hunkStep (⟨'-', "", 0, 0⟩ :: insertRest (lb0 :: lbs) (0 + 1) 0)
          ⟨[], [], none⟩ 0 ⟨'-', "", 0, 0⟩ =
          ⟨[], goSlice (⟨'-', "", 0, 0⟩ :: insertRest (lb0 :: lbs) (0 + 1) 0) 0 (0 + 1),
            some ((0 + 1) - 1)⟩ := by
        rw [hunkStep_first_change _ _ _ _ (by decide) rfl]
        rfl
      rw [hst]
      have hdrop1 : (⟨'-', "", 0, 0⟩ :: insertRest (lb0 :: lbs) (0 + 1) 0 :
          List diffOp).drop (0 + 1) = insertRest (lb0 :: lbs) (0 + 1) 0 := rfl
      rw [hunkLoop_dense _ _ (0 + 1) 0 [] hkinds hdrop1 (by omega) (by omega)]
      have hlen : (0 + 1) + (insertRest (lb0 :: lbs) (0 + 1) 0).length =
          (⟨'-', "", 0, 0⟩ :: insertRest (lb0 :: lbs) (0 + 1) 0 : List diffOp).length := by
        rw [List.length_cons]
        omega
      rw [hlen, goSlice_full]
    have hflush : flushFinal (⟨'-', "", 0, 0⟩ :: insertRest (lb0 :: lbs) (0 + 1) 0)
        ⟨[], ⟨'-', "", 0, 0⟩ :: insertRest (lb0 :: lbs) (0 + 1) 0,
          some ((⟨'-', "", 0, 0⟩ :: insertRest (lb0 :: lbs) (0 + 1) 0 : List diffOp).length - 1)⟩ =
        [formatHunk (⟨'-', "", 0, 0⟩ :: insertRest (lb0 :: lbs) (0 + 1) 0)] := by
      rw [flushFinal]
      have h1 : (⟨'-', "", 0, 0⟩ :: insertRest (lb0 :: lbs) (0 + 1) 0 :
          List diffOp).length - 1 + 1 =
          (⟨'-', "", 0, 0⟩ :: insertRest (lb0 :: lbs) (0 + 1) 0 : List diffOp).length := by
        rw [List.length_cons]
        omega
      have h2 : min ((⟨'-', "", 0, 0⟩ :: insertRest (lb0 :: lbs) (0 + 1) 0 :
          List diffOp).length - 1 + ctx + 1)
          (⟨'-', "", 0, 0⟩ :: insertRest (lb0 :: lbs) (0 + 1) 0 : List diffOp).length =
          (⟨'-', "", 0, 0⟩ :: insertRest (lb0 :: lbs) (0 + 1) 0 : List diffOp).length := by
        simp only [ctx]
        omega
      dsimp only
      rw [h1, h2, goSlice_self_nil, List.append_nil, List.nil_append]
    have hhunks : buildHunks (splitLines "") (splitLines tb)
        (lcsTable (splitLines "") (splitLines tb)) =
        [formatHunk (⟨'-', "", 0, 0⟩ :: insertRest (lb0 :: lbs) (0 + 1) 0)] := by
      rw [hA, hsplit, buildHunks, hops, buildHunksOps_run _ hne hch, hloop, hflush]
    have hout : unifiedDiff "" tb labelA labelB =
        (("--- " ++ labelA ++ "\n") ++ ("+++ " ++ labelB ++ "\n")) ++
          String.join [formatHunk (⟨'-', "", 0, 0⟩ :: insertRest (lb0 :: lbs) (0 + 1) 0)] := by
      rw [unifiedDiff, hhunks, if_neg (List.cons_ne_nil _ _)]
    have hjoin : String.join [formatHunk (⟨'-', "", 0, 0⟩ ::
        insertRest (lb0 :: lbs) (0 + 1) 0)] =
        formatHunk (⟨'-', "", 0, 0⟩ :: insertRest (lb0 :: lbs) (0 + 1) 0) := by
      rw [strJoin_cons]
      rw [show String.join [] = "" from rfl, String.append_empty]
    obtain ⟨B, R, hBR⟩ := formatHunk_del_head (insertRest (lb0 :: lbs) (0 + 1) 0)
    obtain ⟨P, T, hPT⟩ := splice_mid B R
    refine ⟨(("--- " ++ labelA ++ "\n") ++ ("+++ " ++ labelB ++ "\n")) ++ P, T, ?_⟩
    rw [hout, hjoin, hBR, hPT]
    simp only [String.append_assoc]

/-- C10 witness: the phantom-delete theorem applied to the concrete
insertion-only case of empty text A against the one-line text B. -/
theorem C10_empty_input_phantom_delete_witness :
    ("" ∉ splitLines "new line") ∧
    (((buildOps (splitLines "") (splitLines "new line")
        (lcsTable (splitLines "") (splitLines "new line"))).filter
          (fun op => op.kind = '-')) = [⟨'-', "", 0, 0⟩] ∧
    unifiedDiff "" "new line" "remote" "local" ≠ "" ∧
    ∃ p r, unifiedDiff "" "new line" "remote" "local" = p ++ ("\n-\n" ++ r)) :=
  ⟨by decide, C10_empty_input_phantom_delete "new line" "remote" "local" (by decide)⟩

example : splitLines "" = [""] := by decide
example : splitLines "a\nb" = ["a", "b"] := by decide
example : splitLines "a\n" = ["a", ""] := by decide
example : lcsTable ["a"] ["a"] = [[1, 0], [0, 0]] := by decide
example : buildOps ["a", "x"] ["a", "y"] (lcsTable ["a", "x"] ["a", "y"]) =
    [⟨' ', "a", 0, 0⟩, ⟨'-', "x", 1, 1⟩, ⟨'+', "y", 2, 1⟩] := by
  simp [buildOps, buildOpsAux, lcsTable, lcsRow, deleteRest, insertRest]
